import Mathlib

/-!
Verification of the babbletui differential rendering engine and of its text
components, shallowly embedded from the TypeScript sources.

Terminal output is modelled as the list of `terminal.write(...)` call
arguments, in call order.  Line buffers are lists of strings, one string per
screen row, top to bottom, exactly as in the source.
-/

namespace Babble

namespace TUI

/-- Writes of the output loop of `TUI.renderFull` (src/unnamed/part_002,
lines 170-175): one write per line, with a separate `"\n"` write before every
line except the first. -/
def emitLines : List String → List String
  | [] => []
  | b :: rest => b :: rest.flatMap (fun l => ["\n", l])

/-- Model of `TUI.renderFull` (src/unnamed/part_002, lines 161-176): clear
scrollback, clear screen, home the cursor, then write all candidate lines. -/
def renderFull (newBuffer : List String) : List String :=
  "\x1b[3J" :: "\x1b[2J" :: "\x1b[H" :: emitLines newBuffer

/-- Scan shared by `TUI.renderSameLength` (lines 208-214) and `TUI.renderGrew`
(lines 238-244): first index at which the two buffers disagree, walking both
in lockstep (the source loops up to the shorter relevant length). -/
def findFirstDiffAux : List String → List String → Nat → Option Nat
  | a :: as, b :: bs, i => if a ≠ b then some i else findFirstDiffAux as bs (i + 1)
  | _, _, _ => none

/-- First differing index starting the scan at index 0, as in the source. -/
def findFirstDiff (oldBuffer newBuffer : List String) : Option Nat :=
  findFirstDiffAux oldBuffer newBuffer 0

/-- Writes of the inner loop of `TUI.writeLineGroup` (lines 318-328): clear
each line and write its new content in one write, with a `"\n"` write between
consecutive lines of the group. -/
def groupBody (newBuffer : List String) : List Nat → List String
  | [] => []
  | [i] => ["\x1b[2K" ++ newBuffer.getD i ""]
  | i :: rest => ("\x1b[2K" ++ newBuffer.getD i "") :: "\n" :: groupBody newBuffer rest

/-- Model of `TUI.writeLineGroup` (lines 300-332).  `rowFromBottom` is the
JavaScript number `totalLines - lines[0]`, kept as an integer. -/
def writeLineGroup (newBuffer : List String) (lines : List Nat) (totalLines : Nat) :
    List String :=
  match lines with
  | [] => []
  | firstLine :: _ =>
    let rowFromBottom : Int := (totalLines : Int) - (firstLine : Int)
    "\x1b[s" :: ("\x1b[" ++ toString rowFromBottom ++ "A") :: "\r" ::
      (groupBody newBuffer lines ++ ["\x1b[u"])

/-- Grouping loop of `TUI.updateViewportLines` (lines 279-294), with the
remaining iteration count `n` (loop bound minus current index) made explicit;
`cur` is the group of consecutive changed indices collected so far.  Instead
of writing each flushed group immediately, the groups are returned in flush
order; `updateViewportLines` maps them to writes, which yields the same
write sequence. -/
def collectGroupsAux (oldBuffer newBuffer : List String) :
    Nat → Nat → List Nat → List (List Nat)
  | _, 0, cur => if cur.isEmpty then [] else [cur]
  | i, n + 1, cur =>
    if newBuffer.getD i "" ≠ oldBuffer.getD i "" then
      collectGroupsAux oldBuffer newBuffer (i + 1) n (cur ++ [i])
    else if cur.isEmpty then collectGroupsAux oldBuffer newBuffer (i + 1) n []
    else cur :: collectGroupsAux oldBuffer newBuffer (i + 1) n []

/-- Model of `TUI.updateViewportLines` (lines 275-295). -/
def updateViewportLines (oldBuffer newBuffer : List String) (fromLine : Nat) :
    List String :=
  let stop := min newBuffer.length oldBuffer.length
  (collectGroupsAux oldBuffer newBuffer fromLine (stop - fromLine) []).flatMap
    (fun g => writeLineGroup newBuffer g newBuffer.length)

/-- Model of `TUI.renderSameLength` (lines 204-229).  `Math.max(0, len -
viewportHeight)` is truncated subtraction on naturals. -/
def renderSameLength (oldBuffer newBuffer : List String) (viewportHeight : Nat) :
    List String :=
  match findFirstDiff oldBuffer newBuffer with
  | none => []
  | some firstChanged =>
    let viewportStart := newBuffer.length - viewportHeight
    if firstChanged < viewportStart then renderFull newBuffer
    else updateViewportLines oldBuffer newBuffer firstChanged

/-- Model of `TUI.renderGrew` (lines 234-270): the trailing new lines are each
written as a single `"\n" + line` write. -/
def renderGrew (oldBuffer newBuffer : List String) (viewportHeight : Nat) :
    List String :=
  let appended := (newBuffer.drop oldBuffer.length).map (fun l => "\n" ++ l)
  match findFirstDiff oldBuffer newBuffer with
  | none => appended
  | some firstChanged =>
    let viewportStart := oldBuffer.length - viewportHeight
    if firstChanged < viewportStart then renderFull newBuffer
    else updateViewportLines oldBuffer newBuffer firstChanged ++ appended

/-- Model of `TUI.renderDiff` (lines 181-199). -/
def renderDiff (oldBuffer newBuffer : List String) (viewportHeight : Nat) :
    List String :=
  if oldBuffer.length = newBuffer.length then
    renderSameLength oldBuffer newBuffer viewportHeight
  else if oldBuffer.length < newBuffer.length then
    renderGrew oldBuffer newBuffer viewportHeight
  else renderFull newBuffer

/-- Orchestrator state of the `TUI` class (src/unnamed/part_002, lines 12-16):
previous frame buffer, first-render flag, the single-flight render flag, and
the number of scheduled but not yet executed `process.nextTick` render
callbacks. -/
structure TUIState where
  oldBuffer : List String
  isFirstRender : Bool
  renderRequested : Bool
  pendingRenders : Nat
  deriving DecidableEq

/-- Model of `TUI.requestRender` (lines 94-102): a no-op while a render is
already pending, otherwise set the flag and schedule one deferred render. -/
def requestRender (st : TUIState) : TUIState :=
  if st.renderRequested then st
  else { st with renderRequested := true, pendingRenders := st.pendingRenders + 1 }

/-- Model of `TUI.renderToScreen` (lines 141-156).  The candidate buffer,
computed as `root.render(width)` in the source, is passed in directly.
Returns the successor state and the terminal writes of this cycle. -/
def renderToScreen (st : TUIState) (newBuffer : List String) (height : Nat) :
    TUIState × List String :=
  let writes :=
    if st.isFirstRender then renderFull newBuffer
    else renderDiff st.oldBuffer newBuffer height
  ({ st with oldBuffer := newBuffer, isFirstRender := false }, writes)

/-- Model of the `process.nextTick` callback scheduled by `requestRender`
(lines 98-101): clear the pending flag, then run `renderToScreen`. -/
def runPendingRender (st : TUIState) (newBuffer : List String) (height : Nat) :
    TUIState × List String :=
  renderToScreen
    { st with renderRequested := false, pendingRenders := st.pendingRenders - 1 }
    newBuffer height

/-- Model of `TUI.handleResize` (lines 134-139): drop the previous buffer,
force the next render to be a first-style full render, request a render. -/
def handleResize (st : TUIState) : TUIState :=
  requestRender { st with isFirstRender := true, oldBuffer := [] }

/-- Observable actions of `TUI.handleInput` (lines 121-132), in order of
occurrence. -/
inductive TUIEvent where
  | globalHandler (data : String) (consumed : Bool)
  | componentInput (data : String)
  | renderRequest
  deriving DecidableEq

/-- Model of `TUI.handleInput` (lines 121-132).  `onGlobalInput` is the
installed global handler, if any, as a pure predicate on the chunk;
`focusedHandlesInput` tells whether a focused component with a `handleInput`
method exists.  Returns the actions in the order the source performs them. -/
def handleInput (onGlobalInput : Option (String → Bool)) (focusedHandlesInput : Bool)
    (data : String) : List TUIEvent :=
  let deliver :=
    if focusedHandlesInput then [TUIEvent.componentInput data, TUIEvent.renderRequest]
    else []
  match onGlobalInput with
  | some h =>
    if h data then [TUIEvent.globalHandler data true]
    else TUIEvent.globalHandler data false :: deliver
  | none => deliver

/-- Indices `i, i + 1, ..., i + n - 1`, in increasing order. -/
def idxFrom (i : Nat) : Nat → List Nat
  | 0 => []
  | n + 1 => i :: idxFrom (i + 1) n

/-- Merge of a pending run `cur` (whose next index would be `i`) with a list
of later runs: if the first later run starts exactly at `i` the two are one
maximal run, otherwise `cur` stands alone.  With empty `cur` nothing is
pending. -/
def attachRun (i : Nat) (cur : List Nat) (runs : List (List Nat)) : List (List Nat) :=
  if cur.isEmpty then runs
  else
    match runs with
    | (j :: g) :: gs => if j = i then (cur ++ j :: g) :: gs else cur :: (j :: g) :: gs
    | _ => [cur]

/-- Maximal runs of consecutive values of a (sorted) index list, written from
the spec's words: each index either extends the run that continues at the
next index or starts a run of its own. -/
def groupRuns : List Nat → List (List Nat)
  | [] => []
  | i :: rest => attachRun (i + 1) [i] (groupRuns rest)

/-- Indices in `[fromLine, min (newBuffer.length) (oldBuffer.length))` where
the two buffers disagree, in increasing order. -/
def diffIndices (oldBuffer newBuffer : List String) (fromLine : Nat) : List Nat :=
  (idxFrom fromLine (min newBuffer.length oldBuffer.length - fromLine)).filter
    (fun j => decide (newBuffer.getD j "" ≠ oldBuffer.getD j ""))

end TUI

namespace Utils

/-- States of the left-to-right scan for the ANSI pattern `ESC [ body m`:
outside any candidate match, just after an `ESC`, or inside the body with the
characters read since `ESC [` accumulated (needed to re-emit them when the
candidate fails). -/
inductive ScanMode where
  | norm
  | esc
  | body (acc : List Char)

/-- Character-level model of `str.replace(/\x1b\[[0-9;]*m/g, "")` used by
`getVisibleLength` (src/src/utils.ts, lines 8-12): drop every complete match,
keep everything else; a failed candidate match is emitted unchanged and the
scan restarts (no later match can begin inside the emitted characters, since
they contain no `ESC`). -/
def stripAnsiGo : ScanMode → List Char → List Char
  | .norm, [] => []
  | .esc, [] => ['\x1b']
  | .body acc, [] => '\x1b' :: '[' :: acc
  | .norm, c :: rest =>
    if c = '\x1b' then stripAnsiGo .esc rest else c :: stripAnsiGo .norm rest
  | .esc, c :: rest =>
    if c = '[' then stripAnsiGo (.body []) rest
    else if c = '\x1b' then '\x1b' :: stripAnsiGo .esc rest
    else '\x1b' :: c :: stripAnsiGo .norm rest
  | .body acc, c :: rest =>
    if c = 'm' then stripAnsiGo .norm rest
    else if c.isDigit || c = ';' then stripAnsiGo (.body (acc ++ [c])) rest
    else if c = '\x1b' then ('\x1b' :: '[' :: acc) ++ stripAnsiGo .esc rest
    else ('\x1b' :: '[' :: acc) ++ (c :: stripAnsiGo .norm rest)

/-- Model of `getVisibleLength` (src/src/utils.ts, lines 8-12). -/
def getVisibleLength (str : String) : Nat :=
  (stripAnsiGo .norm str.data).length

/-- Tokens consumed by the wrapping loops of `wrapText` and `wordWrapText`:
either a complete `ESC [ ... m` escape sequence (any characters up to the
first `m`, as scanned by the `while (line[j] !== "m")` loops in
src/src/utils.ts lines 40-59 and 109-127), or a single regular character. -/
inductive Tok where
  | ansi (code : List Char)
  | reg (c : Char)

/-- Tokenizer matching the escape-sequence detection of the loops in
src/src/utils.ts (lines 38-73 and 107-147): on `ESC [` the source scans ahead
for the next `m` anywhere in the line and, if found, consumes the whole
sequence; if no `m` follows, the `ESC` and every later character fall through
to the per-character handling (no later candidate can succeed either, since
no `m` remains).  The scan-ahead is realised as the `body` state, flushing
the buffered characters as regular tokens when the line ends first. -/
def tokenizeGo : ScanMode → List Char → List Tok
  | .norm, [] => []
  | .esc, [] => [.reg '\x1b']
  | .body acc, [] => ('\x1b' :: '[' :: acc).map .reg
  | .norm, c :: rest =>
    if c = '\x1b' then tokenizeGo .esc rest else .reg c :: tokenizeGo .norm rest
  | .esc, c :: rest =>
    if c = '[' then tokenizeGo (.body []) rest
    else if c = '\x1b' then .reg '\x1b' :: tokenizeGo .esc rest
    else .reg '\x1b' :: .reg c :: tokenizeGo .norm rest
  | .body acc, c :: rest =>
    if c = 'm' then .ansi ('\x1b' :: '[' :: acc ++ ['m']) :: tokenizeGo .norm rest
    else tokenizeGo (.body (acc ++ [c])) rest

/-- Tokens of one line. -/
def tokenize (line : List Char) : List Tok :=
  tokenizeGo .norm line

/-- Matches of the strict pattern `/\x1b\[[0-9;]*m/g`, in order, as produced
by `matchAll` in `wordWrapText` (src/src/utils.ts, lines 182-189). -/
def ansiMatchesGo : ScanMode → List Char → List (List Char)
  | _, [] => []
  | .norm, c :: rest =>
    if c = '\x1b' then ansiMatchesGo .esc rest else ansiMatchesGo .norm rest
  | .esc, c :: rest =>
    if c = '[' then ansiMatchesGo (.body []) rest
    else if c = '\x1b' then ansiMatchesGo .esc rest
    else ansiMatchesGo .norm rest
  | .body acc, c :: rest =>
    if c = 'm' then ('\x1b' :: '[' :: acc ++ ['m']) :: ansiMatchesGo .norm rest
    else if c.isDigit || c = ';' then ansiMatchesGo (.body (acc ++ [c])) rest
    else if c = '\x1b' then ansiMatchesGo .esc rest
    else ansiMatchesGo .norm rest

/-- Model of `text.split("\n")` (JavaScript semantics: `""` yields `[""]`,
a trailing separator yields a trailing empty piece). -/
def splitLines : List Char → List (List Char)
  | [] => [[]]
  | c :: rest =>
    if c = '\n' then [] :: splitLines rest
    else
      match splitLines rest with
      | h :: t => (c :: h) :: t
      | [] => [[c]]

/-- Model of `str.trimEnd()`: drop trailing whitespace. -/
def trimEnd (s : String) : String :=
  String.mk (s.data.reverse.dropWhile Char.isWhitespace).reverse

/-- Loop state of the character-wrapping loop of `wrapText`
(src/src/utils.ts, lines 33-73): output lines collected so far, the line
under construction, its visible length, and the active ANSI codes. -/
structure WrapSt where
  lines : List String
  currentLine : String
  curVis : Nat
  active : String

/-- One iteration of the `wrapText` loop (src/src/utils.ts, lines 38-73):
an escape sequence is appended invisibly and tracked in `active` (reset by
`ESC[0m`, accumulated otherwise); a regular character first flushes the full
line (re-seeding it with the active codes), then is appended and counted. -/
def wrapStep (width : Nat) (st : WrapSt) : Tok → WrapSt
  | .ansi code =>
    { st with
      currentLine := st.currentLine ++ String.mk code
      active := if code = "\x1b[0m".data then "" else st.active ++ String.mk code }
  | .reg c =>
    let st :=
      if width ≤ st.curVis then
        { st with
          lines := st.lines ++ [st.currentLine]
          currentLine := st.active
          curVis := 0 }
      else st
    { st with currentLine := st.currentLine.push c, curVis := st.curVis + 1 }

/-- Wrapping of one overlong line by `wrapText` (src/src/utils.ts, lines
32-78), including the final push of the remaining content; `lines0` is the
global output list the source keeps across input lines. -/
def wrapLine (width : Nat) (lines0 : List String) (line : List Char) : List String :=
  let st := (tokenize line).foldl (wrapStep width)
    { lines := lines0, currentLine := "", curVis := 0, active := "" }
  if st.currentLine ≠ "" ∨ st.lines = [] then st.lines ++ [st.currentLine] else st.lines

/-- Model of `wrapText` (src/src/utils.ts, lines 20-82). -/
def wrapText (text : String) (width : Nat) : List String :=
  if width = 0 then []
  else
    (splitLines text.data).foldl
      (fun lines line =>
        if getVisibleLength (String.mk line) ≤ width then lines ++ [String.mk line]
        else wrapLine width lines line)
      []

/-- Loop state of the word-splitting phase of `wordWrapText`
(src/src/utils.ts, lines 100-152): collected words with their recorded
visible lengths, the word under construction, its visible length, and the
active ANSI codes. -/
structure WordSt where
  words : List (String × Nat)
  currentWord : String
  curVis : Nat
  active : String

/-- One iteration of the word-splitting loop (src/src/utils.ts, lines
107-147): escape sequences extend the current word invisibly; a space closes
the current word (appending the space and counting it) or is emitted as a
lone one-character word; any other character extends the current word. -/
def wordStep (st : WordSt) : Tok → WordSt
  | .ansi code =>
    { st with
      currentWord := st.currentWord ++ String.mk code
      active := if code = "\x1b[0m".data then "" else st.active ++ String.mk code }
  | .reg c =>
    if c = ' ' then
      if st.currentWord ≠ "" then
        { st with
          words := st.words ++ [(st.currentWord ++ " ", st.curVis + 1)]
          currentWord := st.active
          curVis := 0 }
      else { st with words := st.words ++ [(" ", 1)] }
    else { st with currentWord := st.currentWord.push c, curVis := st.curVis + 1 }

/-- Words of one line with their recorded visible lengths (src/src/utils.ts,
lines 100-152), including the final push of the last word. -/
def wordsOf (line : List Char) : List (String × Nat) :=
  let st := (tokenize line).foldl wordStep
    { words := [], currentWord := "", curVis := 0, active := "" }
  if st.currentWord ≠ "" then st.words ++ [(st.currentWord, st.curVis)] else st.words

/-- Folding of the `matchAll` loop updating `activeAnsiCodes` after a word is
placed (src/src/utils.ts, lines 181-189). -/
def updateActive (active : String) (t : String) : String :=
  (ansiMatchesGo .norm t.data).foldl
    (fun a code => if code = "\x1b[0m".data then "" else a ++ String.mk code) active

/-- Loop state of the line-assembly phase of `wordWrapText`
(src/src/utils.ts, lines 154-203). -/
structure AsmSt where
  lines : List String
  currentLine : String
  curVis : Nat
  active : String

/-- One iteration of the assembly loop (src/src/utils.ts, lines 159-198):
an overlong word flushes the current line and is force-broken with
`wrapText`, keeping the last wrapped piece as the new current line (the
source indexes `wrapped[wrapped.length - 1]`, modelled with default `""`);
a fitting word is appended and the active codes updated from its matches;
otherwise the trimmed current line is flushed and the word starts a new line
seeded with the active codes. -/
def asmStep (width : Nat) (st : AsmSt) (w : String × Nat) : AsmSt :=
  if width < w.2 then
    let st :=
      if st.currentLine ≠ "" then
        { st with
          lines := st.lines ++ [st.currentLine]
          currentLine := st.active
          curVis := 0 }
      else st
    let wrapped := wrapText w.1 width
    { st with
      lines := st.lines ++ wrapped.dropLast
      currentLine := wrapped.getLastD ""
      curVis := getVisibleLength (wrapped.getLastD "") }
  else if st.curVis + w.2 ≤ width then
    { st with
      currentLine := st.currentLine ++ w.1
      curVis := st.curVis + w.2
      active := updateActive st.active w.1 }
  else
    { st with
      lines := if st.currentLine ≠ "" then st.lines ++ [trimEnd st.currentLine] else st.lines
      currentLine := st.active ++ w.1
      curVis := w.2 }

/-- Word-wrapping of one overlong line by `wordWrapText` (src/src/utils.ts,
lines 100-203), including the final push of the trimmed remaining line;
`lines0` is the global output list the source keeps across input lines. -/
def wordWrapLine (width : Nat) (lines0 : List String) (line : List Char) : List String :=
  let st := (wordsOf line).foldl (asmStep width)
    { lines := lines0, currentLine := "", curVis := 0, active := "" }
  if st.currentLine ≠ "" then st.lines ++ [trimEnd st.currentLine] else st.lines

/-- Model of `wordWrapText` (src/src/utils.ts, lines 88-207). -/
def wordWrapText (text : String) (width : Nat) : List String :=
  if width = 0 then []
  else
    (splitLines text.data).foldl
      (fun lines line =>
        if getVisibleLength (String.mk line) ≤ width then lines ++ [String.mk line]
        else wordWrapLine width lines line)
      []

/-- Invariant used in the width-bound proofs: the line fits the width
visibly and contains no escape character. -/
def GoodLine (width : Nat) (s : String) : Prop :=
  getVisibleLength s ≤ width ∧ ∀ c ∈ s.data, c ≠ '\x1b'

end Utils

namespace TextComponent

/-- Model of `TextComponentOptions` (src/src/text-component.ts, lines 4-13);
the `?? 0` defaults are the structure defaults. -/
structure TextComponentOptions where
  paddingLeft : Nat := 0
  paddingRight : Nat := 0
  paddingTop : Nat := 0
  paddingBottom : Nat := 0
  deriving DecidableEq

/-- Model of `TextComponent.render` (src/src/text-component.ts, lines 48-81):
top padding lines, the word-wrapped text with left/right space padding, then
bottom padding lines.  `Math.max(1, width - paddingLeft - paddingRight)` is
`max 1` of the truncated subtraction, which agrees with the JavaScript value
for every natural `width`. -/
def render (text : String) (options : TextComponentOptions) (width : Nat) : List String :=
  let availableWidth := max 1 (width - options.paddingLeft - options.paddingRight)
  let wrappedLines := Utils.wordWrapText text availableWidth
  let leftPad := String.mk (List.replicate options.paddingLeft ' ')
  let rightPad := String.mk (List.replicate options.paddingRight ' ')
  List.replicate options.paddingTop "" ++
    wrappedLines.map (fun line => leftPad ++ line ++ rightPad) ++
    List.replicate options.paddingBottom ""

end TextComponent

namespace SingleLineInput

/-- Option record of `SingleLineInput` (src/src/single-line-input.ts, lines
4-11); only the prompt matters for rendering. -/
structure SingleLineInputOptions where
  prompt : Option String := none

/-- Mutable state of `SingleLineInput` (src/src/single-line-input.ts, lines
17-19). -/
structure SLIState where
  value : String
  cursorPosition : Nat
  scrollOffset : Nat
  deriving DecidableEq

/-- Scroll-offset adjustment at the top of `SingleLineInput.render`
(src/src/single-line-input.ts, lines 58-62); the subtraction
`cursorPosition - availableWidth + 1` only runs when `cursorPosition ≥
scrollOffset + availableWidth`, where truncated subtraction agrees with the
JavaScript number. -/
def adjustScroll (cursorPosition scrollOffset availableWidth : Nat) : Nat :=
  if cursorPosition < scrollOffset then cursorPosition
  else if scrollOffset + availableWidth ≤ cursorPosition then
    cursorPosition - availableWidth + 1
  else scrollOffset

/-- Model of `SingleLineInput.render` (src/src/single-line-input.ts, lines
52-85).  The source mutates `this.scrollOffset`; the model returns the
updated state next to the produced lines. -/
def render (options : SingleLineInputOptions) (st : SLIState) (width : Nat) :
    SLIState × List String :=
  let prompt := options.prompt.getD "> "
  let promptLen := Utils.getVisibleLength prompt
  let availableWidth := max 1 (width - promptLen)
  let so := adjustScroll st.cursorPosition st.scrollOffset availableWidth
  let visibleValue := (st.value.data.drop so).take availableWidth
  let cursorInVisible := st.cursorPosition - so
  let line :=
    if cursorInVisible < visibleValue.length then
      prompt ++ String.mk (visibleValue.take cursorInVisible) ++
        "\x1b[7m" ++ String.mk [visibleValue.getD cursorInVisible ' '] ++ "\x1b[0m" ++
        String.mk (visibleValue.drop (cursorInVisible + 1))
    else
      prompt ++ String.mk (visibleValue.take cursorInVisible) ++ "\x1b[7m \x1b[0m"
  ({ st with scrollOffset := so }, [line])

end SingleLineInput

namespace Chalk

/-- ANSI wrapper produced by `chalk.bold`. -/
def bold (s : String) : String := "\x1b[1m" ++ s ++ "\x1b[22m"

/-- ANSI wrapper produced by `chalk.gray`. -/
def gray (s : String) : String := "\x1b[90m" ++ s ++ "\x1b[39m"

/-- ANSI wrapper produced by `chalk.cyan`. -/
def cyan (s : String) : String := "\x1b[36m" ++ s ++ "\x1b[39m"

/-- ANSI wrapper produced by `chalk.green`. -/
def green (s : String) : String := "\x1b[32m" ++ s ++ "\x1b[39m"

/-- ANSI wrapper produced by `chalk.yellow`. -/
def yellow (s : String) : String := "\x1b[33m" ++ s ++ "\x1b[39m"

end Chalk

namespace Menu

/-- Model of the `MenuEntry` union (src/src/text-component.ts, lines 86-99
of the combined file): a toggle with a boolean value, or an enumeration with
a current value and its options.  The `onChange` callbacks play no role in
rendering. -/
inductive MenuEntry where
  | toggle (label : String) (value : Bool)
  | enum (label : String) (value : String) (options : List String)

/-- Line rendered for one menu entry (src/src/text-component.ts, lines
146-165 of the combined file).  `options.indexOf(value)` is `-1` when the
value is absent, kept as an integer. -/
def entryLine (selectedIndex : Nat) (i : Nat) (entry : MenuEntry) : String :=
  let indicator := if i = selectedIndex then Chalk.cyan "→ " else "  "
  match entry with
  | .toggle label value =>
    let v := if value then Chalk.green "✓" else Chalk.gray "✗"
    indicator ++ label ++ ": " ++ v
  | .enum label value options =>
    let valueIndex : Int :=
      match options.findIdx? (fun o => o == value) with
      | some idx => (idx : Int)
      | none => -1
    let valueDisplay := Chalk.yellow value
    let position :=
      Chalk.gray ("(" ++ toString (valueIndex + 1) ++ "/" ++ toString options.length ++ ")")
    indicator ++ label ++ ": " ++ valueDisplay ++ " " ++ position

/-- Model of `Menu.render` (src/src/text-component.ts, lines 138-169 of the
combined file): title line, blank line, then one line per entry with the
selection indicator on the entry at `selectedIndex`.  The width argument is
ignored, as in the source. -/
def render (entries : List MenuEntry) (selectedIndex : Nat) (_width : Nat) :
    List String :=
  (Chalk.bold "Menu" ++ Chalk.gray " (↑↓ navigate, Enter select, Esc close)") ::
    "" :: entries.enum.map (fun p => entryLine selectedIndex p.1 p.2)

end Menu

namespace TextEditor

/-- Mutable state of `TextEditor` (src/unnamed/part_001, lines 4-8). -/
structure EditorState where
  lines : List String
  cursorLine : Nat
  cursorCol : Nat

/-- Model of the `LayoutLine` record (src/unnamed/part_001, lines 10-14);
`cursorPos` is optional exactly as in the source. -/
structure LayoutLine where
  text : String
  hasCursor : Bool
  cursorPos : Option Nat

/-- Model of JavaScript `str.repeat(n)` for a natural count (the editor
calls it with a negative count when the width is below the box chrome,
which throws a `RangeError`; the model truncates the count at zero). -/
def jsRepeat (s : String) (n : Nat) : String :=
  String.join (List.replicate n s)

/-- Chunks of `n` characters, modelling the slicing loop
`for (pos = 0; pos < len; pos += maxLineLength)` of `layoutText`
(src/unnamed/part_001, lines 243-246).  The JavaScript loop does not
terminate when `maxLineLength = 0` (reachable only for widths below the box
chrome, where `render` already throws on a negative repeat count); the model
steps by at least one character. -/
def chunksOf (n : Nat) (l : List Char) : List (List Char) :=
  if h : l = [] then []
  else l.take (max 1 n) :: chunksOf n (l.drop (max 1 n))
termination_by l.length
decreasing_by
  have hl : 0 < l.length := List.length_pos.mpr h
  simp only [List.length_drop]
  omega

/-- Model of `TextEditor.layoutText` (src/unnamed/part_001, lines 206-274):
an empty editor yields the bare prompt line with the cursor after it;
otherwise each logical line gets its `"> "`/`"  "` lead (named
`prefixedLine` in the source) and is emitted whole when it fits in
`contentWidth`, or as consecutive chunks with the cursor located in the
chunk containing `lead.length + cursorCol`. -/
def layoutText (st : EditorState) (contentWidth : Nat) : List LayoutLine :=
  if st.lines = [] ∨ st.lines = [""] then
    [{ text := "> ", hasCursor := true, cursorPos := some 2 }]
  else
    st.lines.enum.flatMap (fun p =>
      let i := p.1
      let line := p.2
      let isCurrentLine := decide (i = st.cursorLine)
      let lead := if i = 0 then "> " else "  "
      let fullLine := lead ++ line
      if fullLine.length ≤ contentWidth then
        [{ text := fullLine, hasCursor := isCurrentLine,
           cursorPos := if isCurrentLine then some (lead.length + st.cursorCol)
             else none }]
      else
        (chunksOf contentWidth fullLine.data).enum.flatMap (fun q =>
          let chunkIndex := q.1
          let chunk := q.2
          if chunk.isEmpty then []
          else
            let chunkStart := chunkIndex * contentWidth
            let chunkEnd := chunkStart + chunk.length
            let cursorPos := lead.length + st.cursorCol
            let hasCursorInChunk := isCurrentLine &&
              decide (chunkStart ≤ cursorPos) && decide (cursorPos < chunkEnd)
            [{ text := String.mk chunk, hasCursor := hasCursorInChunk,
               cursorPos := if hasCursorInChunk then some (cursorPos - chunkStart)
                 else none }]))

/-- Model of `TextEditor.render` (src/unnamed/part_001, lines 68-123): the
gray box border around the laid-out lines, with the reverse-video cursor
inserted on its layout line and the padding computed from the visible
length (`text.length + 1` when the cursor sits past the end).  `width - 1`
and `boxWidth - 4` are truncated subtractions; for widths below the box
chrome the JavaScript `repeat` throws instead. -/
def render (st : EditorState) (width : Nat) : List String :=
  let horizontal := Chalk.gray "─"
  let vertical := Chalk.gray "│"
  let boxWidth := width - 1
  let contentWidth := boxWidth - 4
  let layoutLines := layoutText st contentWidth
  let top := Chalk.gray "╭" ++ jsRepeat horizontal (boxWidth - 2) ++ Chalk.gray "╮"
  let bottom := Chalk.gray "╰" ++ jsRepeat horizontal (boxWidth - 2) ++ Chalk.gray "╯"
  let body := layoutLines.map (fun ll =>
    let pair :=
      match ll.hasCursor, ll.cursorPos with
      | true, some p =>
        let after := ll.text.data.drop p
        if 0 < after.length then
          (String.mk (ll.text.data.take p) ++ "\x1b[7m" ++ String.mk (after.take 1) ++
            "\x1b[0m" ++ String.mk (after.drop 1), ll.text.length)
        else
          (String.mk (ll.text.data.take p) ++ "\x1b[7m \x1b[0m", ll.text.length + 1)
      | _, _ => (ll.text, ll.text.length)
    vertical ++ " " ++ pair.1 ++ jsRepeat " " (contentWidth - pair.2) ++ " " ++ vertical)
  top :: body ++ [bottom]

end TextEditor

/-- Modelled from the spec: `MarkdownComponent` is exported by the library
index (src/unnamed/part_003) but its source file, `src/markdown-component.ts`,
is not under `src/`.  The spec (§4.2) constrains it only through the
component contract — "`render(width)` is a pure function of the component's
internal state and the given width" — so with its internal state held fixed
the component is its render function from the width to the line sequence,
which this model records. -/
structure MarkdownComponent where
  render : Nat → List String

/-- Model of `Container.render` (src/src/container.ts, lines 44-53):
aggregate the children's rendered lines in child order.  A child component
is represented by its state, of arbitrary type `α`, and the child's render
function, which may update that state — the `Component` contract lets
`render` mutate the component, as `SingleLineInput` does — so the updated
children are returned next to the aggregated lines. -/
def Container.render {α : Type} (childRender : α → Nat → α × List String) :
    List α → Nat → List α × List String
  | [], _ => ([], [])
  | c :: cs, width =>
    ((childRender c width).1 :: (Container.render childRender cs width).1,
      (childRender c width).2 ++ (Container.render childRender cs width).2)

/-! Helper lemmas about the rendering engine. -/

namespace TUI

theorem emitLines_eq_intersperse : ∀ l : List String, emitLines l = List.intersperse "\n" l
  | [] => rfl
  | [_] => rfl
  | b :: x :: xs => by
    have ih := emitLines_eq_intersperse (x :: xs)
    simp only [emitLines, List.flatMap_cons, List.cons_append, List.nil_append,
      List.intersperse_cons₂] at ih ⊢
    rw [← ih]

theorem findFirstDiffAux_self (l : List String) (i : Nat) :
    findFirstDiffAux l l i = none := by
  induction l generalizing i with
  | nil => rfl
  | cons a as ih => simp [findFirstDiffAux, ih]

theorem findFirstDiffAux_take (b : List String) (n i : Nat) :
    findFirstDiffAux (b.take n) b i = none := by
  induction b generalizing n i with
  | nil => cases n <;> rfl
  | cons x xs ih =>
    cases n with
    | zero => rfl
    | succ m => simp [findFirstDiffAux, ih]

theorem findFirstDiffAux_eq_some (i : Nat) : ∀ (a b : List String) (k : Nat),
    i < a.length → i < b.length → a.getD i "" ≠ b.getD i "" →
    (∀ j, j < i → a.getD j "" = b.getD j "") →
    findFirstDiffAux a b k = some (k + i) := by
  induction i with
  | zero =>
    intro a b k ha hb hdiff _
    match a, b with
    | x :: as, y :: bs =>
      simp only [List.getD_cons_zero] at hdiff
      simp [findFirstDiffAux, hdiff]
  | succ m ih =>
    intro a b k ha hb hdiff hfirst
    match a, b with
    | x :: as, y :: bs =>
      have hx : x = y := by
        have := hfirst 0 (Nat.succ_pos m)
        simpa using this
      have hrec := ih as bs (k + 1) (by simpa using ha) (by simpa using hb)
        (by simpa using hdiff)
        (fun j hj => by
          have := hfirst (j + 1) (by omega)
          simpa using this)
      simp only [findFirstDiffAux, hx, ne_eq, not_true_eq_false, if_false, ite_false]
      rw [hrec]
      congr 1
      omega

/-- Equality never holds between a `"\n" + line` append write and a string
starting with the escape character. -/
theorem newline_write_ne (l t : String) (ht : t.data.head? = some '\x1b') :
    "\n" ++ l ≠ t := by
  intro h
  have hd := congrArg (fun s => s.data.head?) h
  simp only [String.data_append] at hd
  rw [ht] at hd
  simp at hd

theorem cursor_up_data (k : Int) :
    ("\x1b[" ++ toString k ++ "A").data = ('\x1b' :: '[' :: (toString k).data) ++ ['A'] := by
  simp [String.data_append]

theorem cursor_up_head (k : Int) :
    ("\x1b[" ++ toString k ++ "A").data.head? = some '\x1b' := by
  rw [cursor_up_data]
  rfl

theorem cursor_up_ne_3J (k : Int) : ("\x1b[" ++ toString k ++ "A") ≠ "\x1b[3J" := by
  intro h
  have hd := congrArg String.data h
  rw [cursor_up_data] at hd
  have hl := congrArg List.getLast? hd
  rw [List.getLast?_concat] at hl
  simp at hl

theorem cursor_up_ne_2J (k : Int) : ("\x1b[" ++ toString k ++ "A") ≠ "\x1b[2J" := by
  intro h
  have hd := congrArg String.data h
  rw [cursor_up_data] at hd
  have hl := congrArg List.getLast? hd
  rw [List.getLast?_concat] at hl
  simp at hl

theorem clear_line_write_ne_3J (c : String) : ("\x1b[2K" ++ c) ≠ "\x1b[3J" := by
  intro h
  have hd := congrArg String.data h
  simp only [String.data_append] at hd
  simp at hd

theorem clear_line_write_ne_2J (c : String) : ("\x1b[2K" ++ c) ≠ "\x1b[2J" := by
  intro h
  have hd := congrArg String.data h
  simp only [String.data_append] at hd
  simp at hd

theorem groupBody_shape (newB : List String) :
    ∀ (g : List Nat) (s : String), s ∈ groupBody newB g →
      s = "\n" ∨ ∃ c, s = "\x1b[2K" ++ c
  | [], s, h => by simp [groupBody] at h
  | [i], s, h => by
    simp only [groupBody, List.mem_singleton] at h
    exact Or.inr ⟨_, h⟩
  | i :: j :: rest, s, h => by
    simp only [groupBody, List.mem_cons] at h
    rcases h with h | h | h
    · exact Or.inr ⟨_, h⟩
    · exact Or.inl h
    · exact groupBody_shape newB (j :: rest) s h

theorem writeLineGroup_shape (newB : List String) (g : List Nat) (L : Nat) (s : String)
    (h : s ∈ writeLineGroup newB g L) :
    s = "\x1b[s" ∨ s = "\r" ∨ s = "\n" ∨ s = "\x1b[u" ∨
      (∃ k : Int, s = "\x1b[" ++ toString k ++ "A") ∨ ∃ c, s = "\x1b[2K" ++ c := by
  match g with
  | [] => simp [writeLineGroup] at h
  | firstLine :: rest =>
    simp only [writeLineGroup, List.mem_cons, List.mem_append, List.mem_singleton,
      List.not_mem_nil, or_false] at h
    rcases h with h | h | h | h | h
    · exact Or.inl h
    · exact Or.inr (Or.inr (Or.inr (Or.inr (Or.inl ⟨_, h⟩))))
    · exact Or.inr (Or.inl h)
    · rcases groupBody_shape newB _ s h with h | h
      · exact Or.inr (Or.inr (Or.inl h))
      · exact Or.inr (Or.inr (Or.inr (Or.inr (Or.inr h))))
    · exact Or.inr (Or.inr (Or.inr (Or.inl h)))

theorem updateViewportLines_shape (oldB newB : List String) (f : Nat) (s : String)
    (h : s ∈ updateViewportLines oldB newB f) :
    s = "\x1b[s" ∨ s = "\r" ∨ s = "\n" ∨ s = "\x1b[u" ∨
      (∃ k : Int, s = "\x1b[" ++ toString k ++ "A") ∨ ∃ c, s = "\x1b[2K" ++ c := by
  simp only [updateViewportLines, List.mem_flatMap] at h
  obtain ⟨g, _, hg⟩ := h
  exact writeLineGroup_shape newB g newB.length s hg

theorem clear_scrollback_not_in_update (oldB newB : List String) (f : Nat) :
    "\x1b[3J" ∉ updateViewportLines oldB newB f := by
  intro h
  rcases updateViewportLines_shape oldB newB f _ h with h | h | h | h | ⟨k, h⟩ | ⟨c, h⟩
  · exact absurd h (by decide)
  · exact absurd h (by decide)
  · exact absurd h (by decide)
  · exact absurd h (by decide)
  · exact cursor_up_ne_3J k h.symm
  · exact clear_line_write_ne_3J c h.symm

theorem clear_screen_not_in_update (oldB newB : List String) (f : Nat) :
    "\x1b[2J" ∉ updateViewportLines oldB newB f := by
  intro h
  rcases updateViewportLines_shape oldB newB f _ h with h | h | h | h | ⟨k, h⟩ | ⟨c, h⟩
  · exact absurd h (by decide)
  · exact absurd h (by decide)
  · exact absurd h (by decide)
  · exact absurd h (by decide)
  · exact cursor_up_ne_2J k h.symm
  · exact clear_line_write_ne_2J c h.symm

theorem idxFrom_mem : ∀ (n i x : Nat), x ∈ idxFrom i n → i ≤ x := by
  intro n
  induction n with
  | zero => intro i x h; simp [idxFrom] at h
  | succ m ih =>
    intro i x h
    simp only [idxFrom, List.mem_cons] at h
    rcases h with rfl | h
    · exact Nat.le_refl x
    · exact Nat.le_of_succ_le (ih (i + 1) x h)

theorem attachRun_empty (i : Nat) (R : List (List Nat)) : attachRun i [] R = R := by
  simp [attachRun]

theorem groupRuns_sound : ∀ (D : List Nat) (g : List Nat),
    g ∈ groupRuns D → g ≠ [] ∧ ∀ x ∈ g, x ∈ D := by
  intro D
  induction D with
  | nil => intro g h; simp [groupRuns] at h
  | cons i rest ih =>
    intro g hg
    simp only [groupRuns] at hg
    rcases hR : groupRuns rest with _ | ⟨r, gs⟩
    · rw [hR] at hg
      simp only [attachRun, List.isEmpty_cons, Bool.false_eq_true, if_false] at hg
      simp only [List.mem_singleton] at hg
      subst hg
      exact ⟨by simp, by simp⟩
    · rcases r with _ | ⟨j, g'⟩
      · -- an empty run cannot occur in `groupRuns rest`
        exact absurd rfl (ih [] (by rw [hR]; exact List.mem_cons_self _ _)).1
      · rw [hR] at hg
        simp only [attachRun, List.isEmpty_cons, Bool.false_eq_true, if_false] at hg
        by_cases hj : j = i + 1
        · rw [if_pos hj] at hg
          simp only [List.mem_cons] at hg
          rcases hg with rfl | hg
          · refine ⟨by simp, ?_⟩
            intro x hx
            simp only [List.cons_append, List.nil_append, List.mem_cons] at hx
            rcases hx with rfl | hx
            · exact List.mem_cons_self _ _
            · have hmem : x ∈ (j :: g' : List Nat) := by
                simpa using hx
              have := (ih (j :: g') (by rw [hR]; exact List.mem_cons_self _ _)).2 x hmem
              exact List.mem_cons_of_mem _ this
          · have := ih g (by rw [hR]; exact List.mem_cons_of_mem _ hg)
            exact ⟨this.1, fun x hx => List.mem_cons_of_mem _ (this.2 x hx)⟩
        · rw [if_neg hj] at hg
          simp only [List.mem_cons] at hg
          rcases hg with rfl | hg
          · exact ⟨by simp, by simp⟩
          · have hgmem : g ∈ groupRuns rest := by
              rw [hR]
              exact List.mem_cons.mpr hg
            have := ih g hgmem
            exact ⟨this.1, fun x hx => List.mem_cons_of_mem _ (this.2 x hx)⟩

theorem attachRun_no_merge (i : Nat) (cur : List Nat) (R : List (List Nat))
    (hcur : cur ≠ []) (hR : ∀ g ∈ R, g ≠ [] ∧ ∀ x ∈ g, i < x) :
    attachRun i cur R = cur :: R := by
  have hcur' : cur.isEmpty = false := by
    cases cur with
    | nil => exact absurd rfl hcur
    | cons a as => rfl
  rcases R with _ | ⟨r, gs⟩
  · simp [attachRun, hcur']
  · rcases r with _ | ⟨j, g'⟩
    · exact absurd rfl (hR [] (List.mem_cons_self _ _)).1
    · have hj : i < j := (hR (j :: g') (List.mem_cons_self _ _)).2 j (List.mem_cons_self _ _)
      simp only [attachRun, hcur', Bool.false_eq_true, if_false]
      rw [if_neg (by omega)]

theorem attachRun_snoc (i : Nat) (cur : List Nat) (R : List (List Nat)) :
    attachRun (i + 1) (cur ++ [i]) R = attachRun i cur (attachRun (i + 1) [i] R) := by
  rcases hc : cur.isEmpty with _ | _
  · -- cur nonempty
    rcases R with _ | ⟨r, gs⟩
    · simp [attachRun, hc]
    · rcases r with _ | ⟨j, g'⟩
      · simp [attachRun, hc]
      · by_cases hj : j = i + 1
        · subst hj
          simp [attachRun, hc]
        · simp [attachRun, hc, hj]
  · -- cur = []
    have : cur = [] := List.isEmpty_iff.mp hc
    subst this
    simp only [List.nil_append, attachRun_empty]

theorem collectGroupsAux_eq (oldB newB : List String) : ∀ (n i : Nat) (cur : List Nat),
    collectGroupsAux oldB newB i n cur =
      attachRun i cur (groupRuns ((idxFrom i n).filter
        (fun j => decide (newB.getD j "" ≠ oldB.getD j "")))) := by
  intro n
  induction n with
  | zero =>
    intro i cur
    simp only [collectGroupsAux, idxFrom, List.filter_nil, groupRuns, attachRun]
  | succ m ih =>
    intro i cur
    by_cases hp : newB.getD i "" ≠ oldB.getD i ""
    · have hfil : (idxFrom i (m + 1)).filter
          (fun j => decide (newB.getD j "" ≠ oldB.getD j "")) =
          i :: (idxFrom (i + 1) m).filter
            (fun j => decide (newB.getD j "" ≠ oldB.getD j "")) := by
        simp only [idxFrom, List.filter_cons, decide_eq_true_eq]
        rw [if_pos hp]
      rw [hfil]
      simp only [collectGroupsAux, if_pos hp]
      rw [ih (i + 1) (cur ++ [i])]
      rw [groupRuns]
      exact attachRun_snoc i cur _
    · have hfil : (idxFrom i (m + 1)).filter
          (fun j => decide (newB.getD j "" ≠ oldB.getD j "")) =
          (idxFrom (i + 1) m).filter
            (fun j => decide (newB.getD j "" ≠ oldB.getD j "")) := by
        simp only [idxFrom, List.filter_cons, decide_eq_true_eq]
        rw [if_neg hp]
      rw [hfil]
      simp only [collectGroupsAux, if_neg hp]
      by_cases hcur : cur.isEmpty
      · have hc : cur = [] := List.isEmpty_iff.mp hcur
        subst hc
        rw [if_pos hcur, ih (i + 1) [], attachRun_empty, attachRun_empty]
      · rw [if_neg hcur, ih (i + 1) [], attachRun_empty]
        have hcurne : cur ≠ [] := by
          intro hc
          subst hc
          exact hcur rfl
        rw [attachRun_no_merge i cur _ hcurne]
        intro g hg
        have hs := groupRuns_sound _ g hg
        refine ⟨hs.1, fun x hx => ?_⟩
        have hxD := hs.2 x hx
        have hxIdx : x ∈ idxFrom (i + 1) m := List.mem_of_mem_filter hxD
        have := idxFrom_mem m (i + 1) x hxIdx
        omega

theorem groupBody_eq_intersperse (newB : List String) : ∀ g : List Nat,
    groupBody newB g = List.intersperse "\n" (g.map fun j => "\x1b[2K" ++ newB.getD j "")
  | [] => rfl
  | [_] => rfl
  | i :: j :: rest => by
    have ih := groupBody_eq_intersperse newB (j :: rest)
    simp only [groupBody, List.map_cons, List.intersperse_cons₂] at ih ⊢
    rw [ih]

theorem writeLineGroup_eq_spec (newB : List String) (L : Nat) :
    ∀ run : List Nat, run ≠ [] →
      writeLineGroup newB run L =
        "\x1b[s" :: ("\x1b[" ++ toString ((L : Int) - (run.headD 0 : Int)) ++ "A") :: "\r" ::
          (List.intersperse "\n" (run.map fun j => "\x1b[2K" ++ newB.getD j "") ++
            ["\x1b[u"]) := by
  intro run hne
  match run with
  | [] => exact absurd rfl hne
  | s :: rest =>
    simp only [writeLineGroup, List.headD_cons]
    rw [groupBody_eq_intersperse]

/-- C2: a partial update consists of exactly one write batch per maximal run
of consecutive differing indices, in increasing index order; the batch for a
run with first index `s` is save-cursor, cursor-up by `candidate length - s`,
carriage return, then per run line one `clear-line + new content` write with
one `"\n"` write between consecutive run lines, then restore-cursor.  The
distance reference is always the candidate buffer length (`updateViewportLines`
receives the candidate buffer both from `renderSameLength` and, in the growth
case, from `renderGrew`). -/
theorem partial_update_run_writes (oldB newB : List String) (fromLine : Nat) :
    updateViewportLines oldB newB fromLine =
      (groupRuns (diffIndices oldB newB fromLine)).flatMap (fun run =>
        "\x1b[s" ::
          ("\x1b[" ++ toString ((newB.length : Int) - (run.headD 0 : Int)) ++ "A") ::
          "\r" ::
          (List.intersperse "\n" (run.map fun j => "\x1b[2K" ++ newB.getD j "") ++
            ["\x1b[u"])) := by
  have hgen : ∀ gs : List (List Nat), (∀ g ∈ gs, g ≠ []) →
      gs.flatMap (fun g => writeLineGroup newB g newB.length) =
      gs.flatMap (fun run =>
        "\x1b[s" ::
          ("\x1b[" ++ toString ((newB.length : Int) - (run.headD 0 : Int)) ++ "A") ::
          "\r" ::
          (List.intersperse "\n" (run.map fun j => "\x1b[2K" ++ newB.getD j "") ++
            ["\x1b[u"])) := by
    intro gs
    induction gs with
    | nil => intro _; rfl
    | cons g gs ih =>
      intro h
      simp only [List.flatMap_cons]
      rw [writeLineGroup_eq_spec newB newB.length g (h g (List.mem_cons_self _ _)),
        ih (fun g' hg' => h g' (List.mem_cons_of_mem _ hg'))]
  simp only [updateViewportLines]
  rw [collectGroupsAux_eq, attachRun_empty]
  rw [diffIndices]
  exact hgen _ (fun g hg => (groupRuns_sound _ g hg).1)

/-- C1: in a same-length render cycle whose first differing index is `i`, a
change below `max 0 (L - R)` (in frozen scrollback) triggers the full rebuild
(clear scrollback, clear screen, home, re-emit every candidate line), while a
change at or above the viewport start triggers the partial update and emits
neither the clear-scrollback nor the clear-screen sequence. -/
theorem same_length_scrollback_boundary (oldB newB : List String) (R i : Nat)
    (hlen : oldB.length = newB.length)
    (hi : i < newB.length)
    (hdiff : oldB.getD i "" ≠ newB.getD i "")
    (hfirst : ∀ j, j < i → oldB.getD j "" = newB.getD j "") :
    (i < newB.length - R →
      renderDiff oldB newB R =
        "\x1b[3J" :: "\x1b[2J" :: "\x1b[H" :: List.intersperse "\n" newB) ∧
    (newB.length - R ≤ i →
      renderDiff oldB newB R = updateViewportLines oldB newB i ∧
      "\x1b[3J" ∉ renderDiff oldB newB R ∧ "\x1b[2J" ∉ renderDiff oldB newB R) := by
  have hfd : findFirstDiff oldB newB = some i := by
    have := findFirstDiffAux_eq_some i oldB newB 0 (by omega) hi hdiff hfirst
    simpa [findFirstDiff] using this
  have hrd : renderDiff oldB newB R = renderSameLength oldB newB R := by
    simp [renderDiff, hlen]
  constructor
  · intro hlt
    rw [hrd]
    simp only [renderSameLength, hfd]
    rw [if_pos hlt]
    simp [renderFull, emitLines_eq_intersperse]
  · intro hge
    have heq : renderDiff oldB newB R = updateViewportLines oldB newB i := by
      rw [hrd]
      simp only [renderSameLength, hfd]
      rw [if_neg (by omega)]
    refine ⟨heq, ?_, ?_⟩
    · rw [heq]; exact clear_scrollback_not_in_update oldB newB i
    · rw [heq]; exact clear_screen_not_in_update oldB newB i

/-- Witness for C1 at spec scenario 2: previous `["a","b","c"]`, candidate
`["a","X","c"]`, viewport height 3; the change at index 1 lies in the
viewport, so the cycle is a partial update. -/
theorem same_length_scrollback_boundary_witness :
    (["a","b","c"] : List String).length = (["a","X","c"] : List String).length ∧
    1 < (["a","X","c"] : List String).length ∧
    renderDiff ["a","b","c"] ["a","X","c"] 3 =
      updateViewportLines ["a","b","c"] ["a","X","c"] 1 := by
  refine ⟨by decide, by decide, ?_⟩
  exact ((same_length_scrollback_boundary ["a","b","c"] ["a","X","c"] 3 1
    (by decide) (by decide) (by decide) (by decide)).2 (by decide)).1

/-- C3: when the previous buffer is a strict exact prefix of the candidate,
the engine writes exactly one `"\n" + line` write per new trailing line, in
index order, and none of the clear or cursor-movement sequences. -/
theorem growth_pure_append (oldB newB : List String) (height : Nat)
    (hpre : oldB = newB.take oldB.length) (hlt : oldB.length < newB.length) :
    renderDiff oldB newB height = (newB.drop oldB.length).map (fun l => "\n" ++ l) ∧
    ∀ s ∈ renderDiff oldB newB height,
      s ≠ "\x1b[3J" ∧ s ≠ "\x1b[2J" ∧ s ≠ "\x1b[H" ∧ s ≠ "\x1b[s" ∧ s ≠ "\x1b[u" ∧
        ∀ k : Int, s ≠ "\x1b[" ++ toString k ++ "A" := by
  have hfd : findFirstDiff oldB newB = none := by
    rw [findFirstDiff]
    rw [hpre]
    exact findFirstDiffAux_take newB oldB.length 0
  have heq : renderDiff oldB newB height = (newB.drop oldB.length).map (fun l => "\n" ++ l) := by
    simp only [renderDiff]
    rw [if_neg (by omega), if_pos hlt]
    simp only [renderGrew, hfd]
  refine ⟨heq, ?_⟩
  intro s hs
  rw [heq] at hs
  simp only [List.mem_map] at hs
  obtain ⟨l, _, rfl⟩ := hs
  exact ⟨newline_write_ne l _ (by rfl), newline_write_ne l _ (by rfl),
    newline_write_ne l _ (by rfl), newline_write_ne l _ (by rfl),
    newline_write_ne l _ (by rfl), fun k => newline_write_ne l _ (cursor_up_head k)⟩

/-- Witness for C3 at spec scenario 4: previous `["a","b"]`, candidate
`["a","b","c","d"]`. -/
theorem growth_pure_append_witness :
    (["a","b"] : List String) = (["a","b","c","d"] : List String).take 2 ∧
    (["a","b"] : List String).length < (["a","b","c","d"] : List String).length ∧
    renderDiff ["a","b"] ["a","b","c","d"] 4 = ["\nc", "\nd"] := by
  refine ⟨by decide, by decide, ?_⟩
  rw [(growth_pure_append ["a","b"] ["a","b","c","d"] 4 (by decide) (by decide)).1]
  decide

/-- C4: a candidate strictly shorter than the previous buffer always takes
the full-rebuild path, whatever the contents: clear scrollback, clear screen,
home, then every candidate line with a `"\n"` write between consecutive
lines. -/
theorem shrink_forces_full_rebuild (oldB newB : List String) (height : Nat)
    (hlt : newB.length < oldB.length) :
    renderDiff oldB newB height =
      "\x1b[3J" :: "\x1b[2J" :: "\x1b[H" :: List.intersperse "\n" newB := by
  simp only [renderDiff]
  rw [if_neg (by omega), if_neg (by omega)]
  simp [renderFull, emitLines_eq_intersperse]

/-- Witness for C4 at spec scenario 5 (5 lines shrinking to 2, overlapping
content irrelevant). -/
theorem shrink_forces_full_rebuild_witness :
    (["x","y"] : List String).length < (["a","b","c","d","e"] : List String).length ∧
    renderDiff ["a","b","c","d","e"] ["x","y"] 3 =
      ["\x1b[3J", "\x1b[2J", "\x1b[H", "x", "\n", "y"] := by
  refine ⟨by decide, ?_⟩
  rw [shrink_forces_full_rebuild ["a","b","c","d","e"] ["x","y"] 3 (by decide)]
  decide

/-- C5: a non-first render cycle whose candidate buffer equals the previous
buffer element-for-element performs zero terminal writes. -/
theorem noop_render_writes_nothing (st : TUIState) (newB : List String) (height : Nat)
    (h1 : st.isFirstRender = false) (h2 : st.oldBuffer = newB) :
    (renderToScreen st newB height).2 = [] := by
  simp only [renderToScreen, h1, Bool.false_eq_true, if_false]
  rw [h2]
  simp [renderDiff, renderSameLength, findFirstDiff, findFirstDiffAux_self]

/-- Witness for C5 at spec scenario 1. -/
theorem noop_render_writes_nothing_witness :
    (renderToScreen ⟨["a","b","c"], false, false, 0⟩ ["a","b","c"] 3).2 = [] :=
  noop_render_writes_nothing ⟨["a","b","c"], false, false, 0⟩ ["a","b","c"] 3 rfl rfl

/-- C6: after a resize notification the previous buffer is discarded (treated
as empty) and the next render cycle is unconditionally a full rebuild, for
every candidate buffer — including one identical to the buffer displayed
before the resize. -/
theorem resize_forces_full_rebuild (st : TUIState) (newB : List String) (height : Nat) :
    (handleResize st).oldBuffer = [] ∧
    (handleResize st).isFirstRender = true ∧
    (renderToScreen (handleResize st) newB height).2 =
      "\x1b[3J" :: "\x1b[2J" :: "\x1b[H" :: List.intersperse "\n" newB := by
  have h1 : (handleResize st).oldBuffer = [] ∧ (handleResize st).isFirstRender = true := by
    simp only [handleResize, requestRender]
    split <;> simp
  refine ⟨h1.1, h1.2, ?_⟩
  simp only [renderToScreen, h1.2, if_true]
  simp [renderFull, emitLines_eq_intersperse]

/-- C7: per input chunk, an installed global handler runs first; if it
consumes the chunk the trace is the single global-handler event (no component
delivery, no render request); otherwise a focused component with
`handleInput` receives the chunk and a render request is always issued right
after; without such a component no delivery and no render request happen. -/
theorem input_routing_order (onGlobal : Option (String → Bool)) (focused : Bool)
    (d : String) :
    (∀ h, onGlobal = some h →
      (handleInput onGlobal focused d).head? = some (TUIEvent.globalHandler d (h d))) ∧
    (∀ h, onGlobal = some h → h d = true →
      handleInput onGlobal focused d = [TUIEvent.globalHandler d true]) ∧
    (∀ h, onGlobal = some h → h d = false → focused = true →
      handleInput onGlobal focused d =
        [TUIEvent.globalHandler d false, TUIEvent.componentInput d,
          TUIEvent.renderRequest]) ∧
    (onGlobal = none → focused = true →
      handleInput onGlobal focused d =
        [TUIEvent.componentInput d, TUIEvent.renderRequest]) ∧
    (focused = false →
      TUIEvent.componentInput d ∉ handleInput onGlobal focused d ∧
      TUIEvent.renderRequest ∉ handleInput onGlobal focused d) := by
  refine ⟨?_, ?_, ?_, ?_, ?_⟩
  · rintro h rfl
    cases hd : h d <;> simp [handleInput, hd]
  · rintro h rfl hd
    simp [handleInput, hd]
  · rintro h rfl hd hf
    subst hf
    simp [handleInput, hd]
  · rintro rfl hf
    subst hf
    simp [handleInput]
  · intro hf
    subst hf
    rcases onGlobal with _ | h
    · simp [handleInput]
    · cases hd : h d <;> simp [handleInput, hd]

/-- Witness for C7: a non-consuming global handler with a focused component
yields delivery plus a render request; a consuming one stops the routing. -/
theorem input_routing_order_witness :
    handleInput (some fun _ => false) true "x" =
      [TUIEvent.globalHandler "x" false, TUIEvent.componentInput "x",
        TUIEvent.renderRequest] ∧
    handleInput (some fun _ => true) true "x" = [TUIEvent.globalHandler "x" true] :=
  ⟨(input_routing_order (some fun _ => false) true "x").2.2.1 _ rfl rfl rfl,
   (input_routing_order (some fun _ => true) true "x").2.1 _ rfl rfl⟩

/-- C8: `requestRender` is single-flight: with the flag clear it sets the
flag and schedules exactly one deferred render; with the flag set it is a
no-op; any batch of `n ≥ 1` synchronous requests equals a single request
(so at most one physical render is scheduled per batch); the scheduled
callback clears the flag before rendering. -/
theorem render_request_single_flight (st : TUIState) (n : Nat) (hn : 1 ≤ n)
    (b : List String) (height : Nat) :
    (st.renderRequested = false →
      (requestRender st).renderRequested = true ∧
      (requestRender st).pendingRenders = st.pendingRenders + 1) ∧
    (st.renderRequested = true → requestRender st = st) ∧
    requestRender^[n] st = requestRender st ∧
    ((runPendingRender (requestRender st) b height).1).renderRequested = false := by
  have hidem : requestRender (requestRender st) = requestRender st := by
    by_cases h : st.renderRequested <;> simp [requestRender, h]
  have hiter : ∀ m, requestRender^[m + 1] st = requestRender st := by
    intro m
    induction m with
    | zero => simp
    | succ k ihk =>
      rw [Function.iterate_succ_apply', ihk, hidem]
  refine ⟨?_, ?_, ?_, ?_⟩
  · intro h
    simp [requestRender, h]
  · intro h
    simp [requestRender, h]
  · obtain ⟨m, rfl⟩ : ∃ m, n = m + 1 := ⟨n - 1, by omega⟩
    exact hiter m
  · simp [runPendingRender, renderToScreen]

/-- Witness for C8: three back-to-back requests from an idle state collapse
to one. -/
theorem render_request_single_flight_witness :
    (1 : Nat) ≤ 3 ∧
    requestRender^[3] ⟨[], true, false, 0⟩ = requestRender ⟨[], true, false, 0⟩ :=
  ⟨by decide,
   (render_request_single_flight ⟨[], true, false, 0⟩ 3 (by decide) [] 24).2.2.1⟩

end TUI

namespace SingleLineInput

theorem adjustScroll_fix (cursor so aw : Nat) (haw : 1 ≤ aw) :
    adjustScroll cursor (adjustScroll cursor so aw) aw = adjustScroll cursor so aw := by
  unfold adjustScroll
  split_ifs <;> omega

end SingleLineInput

namespace Utils

theorem length_push (s : String) (c : Char) : (s.push c).length = s.length + 1 := by
  show (s.push c).data.length = s.data.length + 1
  rw [String.data_push]
  simp

theorem mem_data_push (s : String) (c x : Char) (h : x ∈ (s.push c).data) :
    x ∈ s.data ∨ x = c := by
  rw [String.data_push] at h
  simpa using h

theorem mem_data_append (a b : String) (x : Char) (h : x ∈ (a ++ b).data) :
    x ∈ a.data ∨ x ∈ b.data := by
  rw [String.data_append] at h
  simpa using h

theorem stripAnsiGo_norm_of_escFree (l : List Char) (h : ∀ c ∈ l, c ≠ '\x1b') :
    stripAnsiGo .norm l = l := by
  induction l with
  | nil => rfl
  | cons c rest ih =>
    have hc : c ≠ '\x1b' := h c (List.mem_cons_self _ _)
    simp only [stripAnsiGo, if_neg hc]
    rw [ih (fun x hx => h x (List.mem_cons_of_mem _ hx))]

theorem getVisibleLength_of_escFree (s : String) (h : ∀ c ∈ s.data, c ≠ '\x1b') :
    getVisibleLength s = s.length := by
  rw [getVisibleLength, stripAnsiGo_norm_of_escFree _ h]
  rfl

theorem tokenizeGo_norm_of_escFree (l : List Char) (h : ∀ c ∈ l, c ≠ '\x1b') :
    tokenizeGo .norm l = l.map Tok.reg := by
  induction l with
  | nil => rfl
  | cons c rest ih =>
    have hc : c ≠ '\x1b' := h c (List.mem_cons_self _ _)
    simp only [tokenizeGo, if_neg hc, List.map_cons]
    rw [ih (fun x hx => h x (List.mem_cons_of_mem _ hx))]

theorem tokenize_of_escFree (l : List Char) (h : ∀ c ∈ l, c ≠ '\x1b') :
    tokenize l = l.map Tok.reg :=
  tokenizeGo_norm_of_escFree l h

theorem ansiMatchesGo_norm_of_escFree (l : List Char) (h : ∀ c ∈ l, c ≠ '\x1b') :
    ansiMatchesGo .norm l = [] := by
  induction l with
  | nil => rfl
  | cons c rest ih =>
    have hc : c ≠ '\x1b' := h c (List.mem_cons_self _ _)
    simp only [ansiMatchesGo, if_neg hc]
    exact ih (fun x hx => h x (List.mem_cons_of_mem _ hx))

theorem updateActive_of_escFree (a t : String) (h : ∀ c ∈ t.data, c ≠ '\x1b') :
    updateActive a t = a := by
  rw [updateActive, ansiMatchesGo_norm_of_escFree _ h]
  rfl

theorem splitLines_ne_nil : ∀ l : List Char, splitLines l ≠ [] := by
  intro l
  induction l with
  | nil => simp [splitLines]
  | cons c rest ih =>
    simp only [splitLines]
    by_cases hc : c = '\n'
    · rw [if_pos hc]
      simp
    · rw [if_neg hc]
      cases hsp : splitLines rest <;> simp

theorem splitLines_mem : ∀ (l : List Char) (p : List Char),
    p ∈ splitLines l → ∀ c ∈ p, c ∈ l := by
  intro l
  induction l with
  | nil =>
    intro p hp c hc
    simp only [splitLines, List.mem_singleton] at hp
    subst hp
    simp at hc
  | cons a rest ih =>
    intro p hp c hc
    simp only [splitLines] at hp
    by_cases ha : a = '\n'
    · rw [if_pos ha] at hp
      rcases List.mem_cons.mp hp with rfl | hp
      · simp at hc
      · exact List.mem_cons_of_mem _ (ih p hp c hc)
    · rw [if_neg ha] at hp
      cases hsp : splitLines rest with
      | nil => exact absurd hsp (splitLines_ne_nil rest)
      | cons q qs =>
        rw [hsp] at hp
        rcases List.mem_cons.mp hp with rfl | hp
        · rcases List.mem_cons.mp hc with rfl | hc
          · exact List.mem_cons_self _ _
          · exact List.mem_cons_of_mem _
              (ih q (by rw [hsp]; exact List.mem_cons_self _ _) c hc)
        · exact List.mem_cons_of_mem _
            (ih p (by rw [hsp]; exact List.mem_cons_of_mem _ hp) c hc)

theorem trimEnd_length_le (s : String) : (trimEnd s).length ≤ s.length := by
  have h1 : (trimEnd s).length =
      ((s.data.reverse.dropWhile Char.isWhitespace).reverse).length := rfl
  rw [h1, List.length_reverse]
  calc (s.data.reverse.dropWhile Char.isWhitespace).length
      ≤ s.data.reverse.length := (List.dropWhile_sublist _).length_le
    _ = s.data.length := List.length_reverse _
    _ = s.length := rfl

theorem trimEnd_mem (s : String) (c : Char) (h : c ∈ (trimEnd s).data) : c ∈ s.data := by
  have h1 : c ∈ (s.data.reverse.dropWhile Char.isWhitespace).reverse := h
  rw [List.mem_reverse] at h1
  have h2 := (List.dropWhile_sublist (l := s.data.reverse) Char.isWhitespace).mem h1
  rw [List.mem_reverse] at h2
  exact h2

/-- Canonical form of one regular-character step of the `wrapText` loop. -/
theorem wrapStep_reg (width : Nat) (st : WrapSt) (c : Char) :
    wrapStep width st (.reg c) =
      if width ≤ st.curVis then
        { lines := st.lines ++ [st.currentLine], currentLine := st.active.push c,
          curVis := 1, active := st.active }
      else
        { lines := st.lines, currentLine := st.currentLine.push c,
          curVis := st.curVis + 1, active := st.active } := by
  simp only [wrapStep]
  by_cases hfull : width ≤ st.curVis
  · rw [if_pos hfull, if_pos hfull]
  · rw [if_neg hfull, if_neg hfull]

theorem wrapFold_inv (width : Nat) (hw : 1 ≤ width) :
    ∀ (cs : List Char) (st : WrapSt),
      (∀ c ∈ cs, c ≠ '\x1b') →
      (∀ l ∈ st.lines, GoodLine width l) →
      (∀ c ∈ st.currentLine.data, c ≠ '\x1b') →
      st.curVis = st.currentLine.length →
      st.curVis ≤ width →
      st.active = "" →
      (∀ l ∈ ((cs.map Tok.reg).foldl (wrapStep width) st).lines, GoodLine width l) ∧
      (∀ c ∈ ((cs.map Tok.reg).foldl (wrapStep width) st).currentLine.data,
        c ≠ '\x1b') ∧
      ((cs.map Tok.reg).foldl (wrapStep width) st).curVis =
        ((cs.map Tok.reg).foldl (wrapStep width) st).currentLine.length ∧
      ((cs.map Tok.reg).foldl (wrapStep width) st).curVis ≤ width ∧
      ((cs.map Tok.reg).foldl (wrapStep width) st).active = "" := by
  intro cs
  induction cs with
  | nil =>
    intro st _ h2 h3 h4 h5 h6
    exact ⟨h2, h3, h4, h5, h6⟩
  | cons c cs ih =>
    intro st hcs h2 h3 h4 h5 h6
    have hc : c ≠ '\x1b' := hcs c (List.mem_cons_self _ _)
    simp only [List.map_cons, List.foldl_cons]
    apply ih _ (fun x hx => hcs x (List.mem_cons_of_mem _ hx))
    all_goals rw [wrapStep_reg]
    all_goals by_cases hfull : width ≤ st.curVis
    all_goals simp only [if_pos, if_neg, hfull, if_true, if_false, ite_true, ite_false]
    -- lines
    · intro l hl
      rcases List.mem_append.mp hl with hl | hl
      · exact h2 l hl
      · rw [List.mem_singleton.mp hl]
        exact ⟨by rw [getVisibleLength_of_escFree _ h3]; omega, h3⟩
    · exact h2
    -- currentLine escape-free
    · intro x hx
      rcases mem_data_push _ _ _ hx with hx | rfl
      · rw [h6] at hx
        simp at hx
      · exact hc
    · intro x hx
      rcases mem_data_push _ _ _ hx with hx | rfl
      · exact h3 x hx
      · exact hc
    -- curVis = length
    · rw [h6, length_push]
      rfl
    · rw [length_push, h4]
    -- curVis ≤ width
    · omega
    · omega
    -- active
    · exact h6
    · exact h6

theorem wrapLine_good (width : Nat) (hw : 1 ≤ width) (lines0 : List String)
    (line : List Char) (hl0 : ∀ l ∈ lines0, GoodLine width l)
    (hline : ∀ c ∈ line, c ≠ '\x1b') :
    ∀ l ∈ wrapLine width lines0 line, GoodLine width l := by
  intro l hl
  simp only [wrapLine, tokenize_of_escFree line hline] at hl
  have hinv := wrapFold_inv width hw line
    { lines := lines0, currentLine := "", curVis := 0, active := "" }
    hline hl0 (by simp) rfl (Nat.zero_le _) rfl
  rcases hinv with ⟨hlines, hesc, hlen, hvis, _⟩
  split at hl
  · rcases List.mem_append.mp hl with hl | hl
    · exact hlines l hl
    · rw [List.mem_singleton.mp hl]
      exact ⟨by rw [getVisibleLength_of_escFree _ hesc]; omega, hesc⟩
  · exact hlines l hl

theorem wrapText_good (s : String) (width : Nat) (hw : 1 ≤ width)
    (h : ∀ c ∈ s.data, c ≠ '\x1b') :
    ∀ l ∈ wrapText s width, GoodLine width l := by
  have H : ∀ (ps : List (List Char)) (acc : List String),
      (∀ p ∈ ps, ∀ c ∈ p, c ≠ '\x1b') →
      (∀ l ∈ acc, GoodLine width l) →
      ∀ l ∈ ps.foldl (fun lines line =>
          if getVisibleLength (String.mk line) ≤ width then lines ++ [String.mk line]
          else wrapLine width lines line) acc, GoodLine width l := by
    intro ps
    induction ps with
    | nil =>
      intro acc _ hacc l hl
      exact hacc l hl
    | cons p ps ih =>
      intro acc hps hacc
      simp only [List.foldl_cons]
      apply ih _ (fun q hq => hps q (List.mem_cons_of_mem _ hq))
      by_cases hv : getVisibleLength (String.mk p) ≤ width
      · rw [if_pos hv]
        intro l hl
        rcases List.mem_append.mp hl with hl | hl
        · exact hacc l hl
        · rw [List.mem_singleton.mp hl]
          exact ⟨hv, hps p (List.mem_cons_self _ _)⟩
      · rw [if_neg hv]
        exact wrapLine_good width hw acc p hacc (hps p (List.mem_cons_self _ _))
  intro l hl
  rw [wrapText, if_neg (by omega)] at hl
  exact H _ [] (fun p hp c hc => h c (splitLines_mem _ p hp c hc)) (by simp) l hl

/-- Canonical form of one regular-character step of the word-splitting
loop. -/
theorem wordStep_reg (st : WordSt) (c : Char) :
    wordStep st (.reg c) =
      if c = ' ' then
        if st.currentWord ≠ "" then
          { words := st.words ++ [(st.currentWord ++ " ", st.curVis + 1)],
            currentWord := st.active, curVis := 0, active := st.active }
        else
          { words := st.words ++ [(" ", 1)], currentWord := st.currentWord,
            curVis := st.curVis, active := st.active }
      else
        { words := st.words, currentWord := st.currentWord.push c,
          curVis := st.curVis + 1, active := st.active } := by
  simp only [wordStep]

theorem wordsFold_inv : ∀ (cs : List Char) (st : WordSt),
    (∀ c ∈ cs, c ≠ '\x1b') →
    (∀ w ∈ st.words, w.2 = w.1.length ∧ ∀ c ∈ w.1.data, c ≠ '\x1b') →
    (∀ c ∈ st.currentWord.data, c ≠ '\x1b') →
    st.curVis = st.currentWord.length →
    st.active = "" →
    (∀ w ∈ ((cs.map Tok.reg).foldl wordStep st).words,
      w.2 = w.1.length ∧ ∀ c ∈ w.1.data, c ≠ '\x1b') ∧
    (∀ c ∈ ((cs.map Tok.reg).foldl wordStep st).currentWord.data, c ≠ '\x1b') ∧
    ((cs.map Tok.reg).foldl wordStep st).curVis =
      ((cs.map Tok.reg).foldl wordStep st).currentWord.length ∧
    ((cs.map Tok.reg).foldl wordStep st).active = "" := by
  intro cs
  induction cs with
  | nil =>
    intro st _ h2 h3 h4 h5
    exact ⟨h2, h3, h4, h5⟩
  | cons c cs ih =>
    intro st hcs h2 h3 h4 h5
    have hc : c ≠ '\x1b' := hcs c (List.mem_cons_self _ _)
    simp only [List.map_cons, List.foldl_cons]
    refine ih _ (fun x hx => hcs x (List.mem_cons_of_mem _ hx)) ?_ ?_ ?_ ?_
    all_goals rw [wordStep_reg]
    · split_ifs with hsp hcw
      · intro w hw
        rcases List.mem_append.mp hw with hw | hw
        · exact h2 w hw
        · rw [List.mem_singleton.mp hw]
          refine ⟨?_, ?_⟩
          · show st.curVis + 1 = (st.currentWord ++ " ").length
            rw [String.length_append, h4]
            rfl
          · intro x hx
            rcases mem_data_append _ _ _ hx with hx | hx
            · exact h3 x hx
            · have hx' : x = ' ' := by simpa using hx
              subst hx'
              decide
      · intro w hw
        rcases List.mem_append.mp hw with hw | hw
        · exact h2 w hw
        · rw [List.mem_singleton.mp hw]
          refine ⟨rfl, ?_⟩
          intro x hx
          have hx' : x = ' ' := by simpa using hx
          subst hx'
          decide
      · exact h2
    · split_ifs with hsp hcw
      · rw [h5]
        intro x hx
        simp at hx
      · exact h3
      · intro x hx
        rcases mem_data_push _ _ _ hx with hx | rfl
        · exact h3 x hx
        · exact hc
    · split_ifs with hsp hcw
      · rw [h5]
        rfl
      · exact h4
      · rw [length_push, h4]
    · split_ifs with hsp hcw <;> exact h5

theorem wordsOf_good (line : List Char) (h : ∀ c ∈ line, c ≠ '\x1b') :
    ∀ w ∈ wordsOf line, w.2 = w.1.length ∧ ∀ c ∈ w.1.data, c ≠ '\x1b' := by
  intro w hw
  simp only [wordsOf, tokenize_of_escFree line h] at hw
  have hinv := wordsFold_inv line
    { words := [], currentWord := "", curVis := 0, active := "" }
    h (by simp) (by simp) rfl rfl
  rcases hinv with ⟨hwords, hesc, hlen, _⟩
  split at hw
  · rcases List.mem_append.mp hw with hw | hw
    · exact hwords w hw
    · rw [List.mem_singleton.mp hw]
      exact ⟨hlen, hesc⟩
  · exact hwords w hw

/-- Canonical form of one assembly step. -/
theorem asmStep_eq (width : Nat) (st : AsmSt) (w : String × Nat) :
    asmStep width st w =
      if width < w.2 then
        if st.currentLine ≠ "" then
          { lines := (st.lines ++ [st.currentLine]) ++ (wrapText w.1 width).dropLast,
            currentLine := (wrapText w.1 width).getLastD "",
            curVis := getVisibleLength ((wrapText w.1 width).getLastD ""),
            active := st.active }
        else
          { lines := st.lines ++ (wrapText w.1 width).dropLast,
            currentLine := (wrapText w.1 width).getLastD "",
            curVis := getVisibleLength ((wrapText w.1 width).getLastD ""),
            active := st.active }
      else if st.curVis + w.2 ≤ width then
        { lines := st.lines, currentLine := st.currentLine ++ w.1,
          curVis := st.curVis + w.2, active := updateActive st.active w.1 }
      else
        { lines := if st.currentLine ≠ "" then st.lines ++ [trimEnd st.currentLine]
            else st.lines,
          currentLine := st.active ++ w.1, curVis := w.2, active := st.active } := by
  simp only [asmStep]
  by_cases hbig : width < w.2
  · rw [if_pos hbig, if_pos hbig]
    by_cases hcl : st.currentLine ≠ ""
    · rw [if_pos hcl, if_pos hcl]
    · rw [if_neg hcl, if_neg hcl]
  · rw [if_neg hbig, if_neg hbig]

theorem asmFold_inv (width : Nat) (hw : 1 ≤ width) :
    ∀ (ws : List (String × Nat)) (st : AsmSt),
      (∀ w ∈ ws, w.2 = w.1.length ∧ ∀ c ∈ w.1.data, c ≠ '\x1b') →
      (∀ l ∈ st.lines, GoodLine width l) →
      (∀ c ∈ st.currentLine.data, c ≠ '\x1b') →
      st.curVis = st.currentLine.length →
      st.curVis ≤ width →
      st.active = "" →
      (∀ l ∈ (ws.foldl (asmStep width) st).lines, GoodLine width l) ∧
      (∀ c ∈ (ws.foldl (asmStep width) st).currentLine.data, c ≠ '\x1b') ∧
      (ws.foldl (asmStep width) st).curVis =
        (ws.foldl (asmStep width) st).currentLine.length ∧
      (ws.foldl (asmStep width) st).curVis ≤ width ∧
      (ws.foldl (asmStep width) st).active = "" := by
  intro ws
  induction ws with
  | nil =>
    intro st _ h2 h3 h4 h5 h6
    exact ⟨h2, h3, h4, h5, h6⟩
  | cons w ws ih =>
    intro st hws h2 h3 h4 h5 h6
    obtain ⟨hw2, hwesc⟩ := hws w (List.mem_cons_self _ _)
    have hcur : GoodLine width st.currentLine :=
      ⟨by rw [getVisibleLength_of_escFree _ h3]; omega, h3⟩
    have hlast : GoodLine width ((wrapText w.1 width).getLastD "") := by
      cases hwt : wrapText w.1 width with
      | nil =>
        constructor
        · exact Nat.zero_le width
        · intro x hx
          simp at hx
      | cons a as =>
        have hmem : (a :: as).getLastD "" ∈ (a :: as) := by
          rw [List.getLastD_eq_getLast?, List.getLast?_eq_getLast _ (by simp)]
          exact List.getLast_mem _
        have := wrapText_good w.1 width hw hwesc
        rw [hwt] at this
        exact this _ hmem
    simp only [List.foldl_cons]
    refine ih _ (fun x hx => hws x (List.mem_cons_of_mem _ hx)) ?_ ?_ ?_ ?_ ?_
    all_goals rw [asmStep_eq]
    · -- lines stay good
      by_cases hbig : width < w.2
      · rw [if_pos hbig]
        by_cases hcl : st.currentLine ≠ ""
        · rw [if_pos hcl]
          intro l hl
          rcases List.mem_append.mp hl with hl | hl
          · rcases List.mem_append.mp hl with hl | hl
            · exact h2 l hl
            · rw [List.mem_singleton.mp hl]
              exact hcur
          · exact wrapText_good w.1 width hw hwesc l (List.mem_of_mem_dropLast hl)
        · rw [if_neg hcl]
          intro l hl
          rcases List.mem_append.mp hl with hl | hl
          · exact h2 l hl
          · exact wrapText_good w.1 width hw hwesc l (List.mem_of_mem_dropLast hl)
      · rw [if_neg hbig]
        by_cases hfits : st.curVis + w.2 ≤ width
        · rw [if_pos hfits]
          exact h2
        · rw [if_neg hfits]
          by_cases hcl : st.currentLine ≠ ""
          · rw [if_pos hcl]
            intro l hl
            rcases List.mem_append.mp hl with hl | hl
            · exact h2 l hl
            · rw [List.mem_singleton.mp hl]
              constructor
              · rw [getVisibleLength_of_escFree _
                  (fun x hx => h3 x (trimEnd_mem _ _ hx))]
                have := trimEnd_length_le st.currentLine
                omega
              · intro x hx
                exact h3 x (trimEnd_mem _ _ hx)
          · rw [if_neg hcl]
            exact h2
    · -- current line stays escape-free
      by_cases hbig : width < w.2
      · rw [if_pos hbig]
        by_cases hcl : st.currentLine ≠ ""
        · rw [if_pos hcl]
          exact hlast.2
        · rw [if_neg hcl]
          exact hlast.2
      · rw [if_neg hbig]
        by_cases hfits : st.curVis + w.2 ≤ width
        · rw [if_pos hfits]
          intro x hx
          rcases mem_data_append _ _ _ hx with hx | hx
          · exact h3 x hx
          · exact hwesc x hx
        · rw [if_neg hfits]
          intro x hx
          rcases mem_data_append _ _ _ hx with hx | hx
          · rw [h6] at hx
            simp at hx
          · exact hwesc x hx
    · -- recorded width matches the current line
      by_cases hbig : width < w.2
      · rw [if_pos hbig]
        by_cases hcl : st.currentLine ≠ ""
        · rw [if_pos hcl]
          exact getVisibleLength_of_escFree _ hlast.2
        · rw [if_neg hcl]
          exact getVisibleLength_of_escFree _ hlast.2
      · rw [if_neg hbig]
        by_cases hfits : st.curVis + w.2 ≤ width
        · rw [if_pos hfits]
          rw [String.length_append, h4, hw2]
        · rw [if_neg hfits]
          show w.2 = (st.active ++ w.1).length
          rw [String.length_append, h6, hw2]
          simp
    · -- the recorded width stays bounded
      by_cases hbig : width < w.2
      · rw [if_pos hbig]
        by_cases hcl : st.currentLine ≠ ""
        · rw [if_pos hcl]
          exact hlast.1
        · rw [if_neg hcl]
          exact hlast.1
      · rw [if_neg hbig]
        by_cases hfits : st.curVis + w.2 ≤ width
        · rw [if_pos hfits]
          exact hfits
        · rw [if_neg hfits]
          show w.2 ≤ width
          omega
    · -- no active codes appear
      by_cases hbig : width < w.2
      · rw [if_pos hbig]
        by_cases hcl : st.currentLine ≠ ""
        · rw [if_pos hcl]
          exact h6
        · rw [if_neg hcl]
          exact h6
      · rw [if_neg hbig]
        by_cases hfits : st.curVis + w.2 ≤ width
        · rw [if_pos hfits]
          rw [updateActive_of_escFree _ _ hwesc]
          exact h6
        · rw [if_neg hfits]
          exact h6

theorem wordWrapLine_good (width : Nat) (hw : 1 ≤ width) (lines0 : List String)
    (line : List Char) (hl0 : ∀ l ∈ lines0, GoodLine width l)
    (hline : ∀ c ∈ line, c ≠ '\x1b') :
    ∀ l ∈ wordWrapLine width lines0 line, GoodLine width l := by
  intro l hl
  simp only [wordWrapLine] at hl
  have hinv := asmFold_inv width hw (wordsOf line)
    { lines := lines0, currentLine := "", curVis := 0, active := "" }
    (wordsOf_good line hline) hl0 (by simp) rfl (Nat.zero_le _) rfl
  rcases hinv with ⟨hlines, hesc, hlen, hvis, _⟩
  split at hl
  · rcases List.mem_append.mp hl with hl | hl
    · exact hlines l hl
    · rw [List.mem_singleton.mp hl]
      constructor
      · rw [getVisibleLength_of_escFree _ (fun x hx => hesc x (trimEnd_mem _ _ hx))]
        have := trimEnd_length_le
          ((wordsOf line).foldl (asmStep width)
            { lines := lines0, currentLine := "", curVis := 0, active := "" }).currentLine
        omega
      · intro x hx
        exact hesc x (trimEnd_mem _ _ hx)
  · exact hlines l hl

theorem wordWrapText_good (s : String) (width : Nat) (hw : 1 ≤ width)
    (h : ∀ c ∈ s.data, c ≠ '\x1b') :
    ∀ l ∈ wordWrapText s width, GoodLine width l := by
  have H : ∀ (ps : List (List Char)) (acc : List String),
      (∀ p ∈ ps, ∀ c ∈ p, c ≠ '\x1b') →
      (∀ l ∈ acc, GoodLine width l) →
      ∀ l ∈ ps.foldl (fun lines line =>
          if getVisibleLength (String.mk line) ≤ width then lines ++ [String.mk line]
          else wordWrapLine width lines line) acc, GoodLine width l := by
    intro ps
    induction ps with
    | nil =>
      intro acc _ hacc l hl
      exact hacc l hl
    | cons p ps ih =>
      intro acc hps hacc
      simp only [List.foldl_cons]
      apply ih _ (fun q hq => hps q (List.mem_cons_of_mem _ hq))
      by_cases hv : getVisibleLength (String.mk p) ≤ width
      · rw [if_pos hv]
        intro l hl
        rcases List.mem_append.mp hl with hl | hl
        · exact hacc l hl
        · rw [List.mem_singleton.mp hl]
          exact ⟨hv, hps p (List.mem_cons_self _ _)⟩
      · rw [if_neg hv]
        exact wordWrapLine_good width hw acc p hacc (hps p (List.mem_cons_self _ _))
  intro l hl
  rw [wordWrapText, if_neg (by omega)] at hl
  exact H _ [] (fun p hp c hc => h c (splitLines_mem _ p hp c hc)) (by simp) l hl

end Utils

namespace TextComponent

/-- Counterexample to C10: with left and right padding 2 at width 2 the
single rendered line has visible length 5, exceeding the width.  (The
`max(1, ...)` clamp keeps one text column even when the padding leaves no
room, so the padded line overflows.) -/
theorem render_width_bound_counterexample :
    render "a" ⟨2, 2, 0, 0⟩ 2 = ["  a  "] ∧
    ¬ (∀ l ∈ render "a" ⟨2, 2, 0, 0⟩ 2, Utils.getVisibleLength l ≤ 2) := by
  constructor
  · decide
  · decide

/-- Amended C10: for `TextComponent`, when the text contains no escape
character and the horizontal padding leaves at least one column
(`paddingLeft + paddingRight < width`), every rendered line has visible
length at most `width`. -/
theorem render_width_bound (text : String) (options : TextComponentOptions)
    (width : Nat)
    (hesc : ∀ c ∈ text.data, c ≠ '\x1b')
    (hpad : options.paddingLeft + options.paddingRight < width) :
    ∀ l ∈ render text options width, Utils.getVisibleLength l ≤ width := by
  intro l hl
  have haw : max 1 (width - options.paddingLeft - options.paddingRight) =
      width - options.paddingLeft - options.paddingRight :=
    Nat.max_eq_right (by omega)
  simp only [render] at hl
  rcases List.mem_append.mp hl with hl | hl
  · rcases List.mem_append.mp hl with hl | hl
    · rw [(List.mem_replicate.mp hl).2]
      exact Nat.zero_le width
    · obtain ⟨line, hline, rfl⟩ := List.mem_map.mp hl
      obtain ⟨hvis, hescl⟩ :=
        Utils.wordWrapText_good text _ (le_max_left 1 _) hesc line hline
      have hespace : ∀ (n : Nat) (x : Char),
          x ∈ (String.mk (List.replicate n ' ')).data → x ≠ '\x1b' := by
        intro n x hx
        rw [(List.mem_replicate.mp hx).2]
        decide
      have hall : ∀ x ∈ (String.mk (List.replicate options.paddingLeft ' ') ++ line ++
          String.mk (List.replicate options.paddingRight ' ')).data, x ≠ '\x1b' := by
        intro x hx
        rcases Utils.mem_data_append _ _ _ hx with hx | hx
        · rcases Utils.mem_data_append _ _ _ hx with hx | hx
          · exact hespace _ _ hx
          · exact hescl x hx
        · exact hespace _ _ hx
      rw [Utils.getVisibleLength_of_escFree _ hall]
      rw [String.length_append, String.length_append]
      have h1 : (String.mk (List.replicate options.paddingLeft ' ')).length =
          options.paddingLeft := by
        show (List.replicate options.paddingLeft ' ').length = options.paddingLeft
        rw [List.length_replicate]
      have h2 : (String.mk (List.replicate options.paddingRight ' ')).length =
          options.paddingRight := by
        show (List.replicate options.paddingRight ' ').length = options.paddingRight
        rw [List.length_replicate]
      have h3 : line.length ≤ width - options.paddingLeft - options.paddingRight := by
        rw [haw] at hvis
        rw [← Utils.getVisibleLength_of_escFree line hescl]
        exact hvis
      omega
  · rw [(List.mem_replicate.mp hl).2]
    exact Nat.zero_le width

/-- Witness for the amended C10 at a word-wrapping input. -/
theorem render_width_bound_witness :
    (∀ c ∈ ("hello world" : String).data, c ≠ '\x1b') ∧
    1 + 1 < 6 ∧
    ∀ l ∈ render "hello world" ⟨1, 1, 1, 1⟩ 6, Utils.getVisibleLength l ≤ 6 :=
  ⟨by decide, by decide,
    render_width_bound "hello world" ⟨1, 1, 1, 1⟩ 6 (by decide) (by decide)⟩

end TextComponent

/-- C9: two consecutive `render(width)` calls with no intervening mutation
yield identical line sequences, for every component of the library:
`SingleLineInput`, whose render mutates the scroll offset but whose second
call reproduces the first call's state and lines (the adjusted offset is a
fixpoint); `TextComponent`, `Menu` and `TextEditor`, whose renders read
their state without mutating it, so their models are functions of state and
width; the spec-modelled `MarkdownComponent`; and `Container`, whose render
is deterministic in the same state-passing sense whenever each child's
render is. -/
theorem render_deterministic (opts : SingleLineInput.SingleLineInputOptions)
    (st : SingleLineInput.SLIState) (width : Nat)
    (text : String) (tcOpts : TextComponent.TextComponentOptions)
    (entries : List Menu.MenuEntry) (selectedIndex : Nat)
    (est : TextEditor.EditorState) (md : MarkdownComponent)
    {α : Type} (childRender : α → Nat → α × List String) (children : List α) :
    SingleLineInput.render opts (SingleLineInput.render opts st width).1 width =
      SingleLineInput.render opts st width ∧
    TextComponent.render text tcOpts width = TextComponent.render text tcOpts width ∧
    Menu.render entries selectedIndex width = Menu.render entries selectedIndex width ∧
    TextEditor.render est width = TextEditor.render est width ∧
    md.render width = md.render width ∧
    ((∀ c : α, childRender (childRender c width).1 width = childRender c width) →
      Container.render childRender
          (Container.render childRender children width).1 width =
        Container.render childRender children width) := by
  refine ⟨?_, rfl, rfl, rfl, rfl, ?_⟩
  · have haw : 1 ≤ max 1 (width - Utils.getVisibleLength (opts.prompt.getD "> ")) :=
      le_max_left _ _
    simp only [SingleLineInput.render]
    rw [SingleLineInput.adjustScroll_fix _ _ _ haw]
  · intro hchild
    induction children with
    | nil => rfl
    | cons c cs ih =>
      simp only [Container.render]
      rw [hchild c, ih]

/-- Witness for C9: a container of two `SingleLineInput` children (one with
a scrolled-out cursor that forces a scroll-offset mutation on the first
render) renders the same lines and children on a second call; the child
hypothesis is discharged by the single-line-input part of the theorem. -/
theorem render_deterministic_witness :
    Container.render (SingleLineInput.render {})
        (Container.render (SingleLineInput.render {})
          [⟨"hello", 5, 0⟩, ⟨"", 0, 0⟩] 5).1 5 =
      Container.render (SingleLineInput.render {}) [⟨"hello", 5, 0⟩, ⟨"", 0, 0⟩] 5 :=
  (render_deterministic {} ⟨"", 0, 0⟩ 5 "" {} [] 0 ⟨[""], 0, 0⟩ ⟨fun _ => []⟩
      (SingleLineInput.render {}) [⟨"hello", 5, 0⟩, ⟨"", 0, 0⟩]).2.2.2.2.2
    (fun c =>
      (render_deterministic {} c 5 "" {} [] 0 ⟨[""], 0, 0⟩ ⟨fun _ => []⟩
        (SingleLineInput.render {}) []).1)

end Babble
